import Mathlib

/-!
Verification of the shortmux request router (a fork of Go's net/http
ServeMux) against its natural-language specification.

Go strings are modelled as lists of characters (`Str`); Go byte-level
string operations become list operations.  The source files under
verification are `shortmux.go` (ServeMux, registerErr, matchOrRedirect,
exactMatch, matchingMethods, findHandler) and the routingIndex fragment
(`routingIndex.addPattern`).  The pattern type's field names (`s`, `wild`,
`multi`, `method`, `host`, `segments`, `loc`) are taken from their uses in
those files.  The pattern parser, the conflict detector and the routing
tree are not part of the provided sources; they are modelled from the
specification, and each such definition is marked `Modelled from the
spec:` in its doc comment.
-/

/-- Go strings, modelled as lists of characters. -/
abbrev Str := List Char

/-- Conversion from Lean string literals to the `Str` model. -/
def str (s : String) : Str := s.data

/-- Splits a character list on the slash character.  Always returns a
non-empty list of chunks; a trailing slash yields a final empty chunk. -/
def splitOnSlash : Str → List Str
  | [] => [[]]
  | c :: rest =>
    if c = '/' then [] :: splitOnSlash rest
    else
      match splitOnSlash rest with
      | s :: ss => (c :: s) :: ss
      | [] => [[c]]

/-- Joins chunks with slashes, the inverse of `splitOnSlash`. -/
def joinSlash : List Str → Str
  | [] => []
  | [s] => s
  | s :: rest => s ++ '/' :: joinSlash rest

/-- Splits a request path into segments the way the Go matcher consumes it:
the first character (the leading slash) is dropped and the remainder is
split on slashes, so a trailing slash produces a final empty segment. -/
def splitPath (p : Str) : List Str :=
  if p = [] then [] else splitOnSlash p.tail

/-- One path segment of a parsed pattern.  Field names follow the source
(`seg.s`, `seg.wild`, `seg.multi`).  A literal segment has `wild = false`
and its text in `s`; a single wildcard has `wild = true, multi = false`
with its name in `s`; a multi wildcard has `wild = true, multi = true`
(anonymous, with empty `s`, for a trailing slash); the end-of-path marker
is stored as the literal slash segment. -/
structure Segment where
  s : Str
  wild : Bool
  multi : Bool
deriving DecidableEq

/-- A parsed route pattern.  Field names follow the source uses
(`pat.method` is implied by the spec data model, `pat.segments`,
`pat.loc`); `patstr` keeps the original pattern string. -/
structure Pattern where
  method : Str
  host : Str
  segments : List Segment
  patstr : Str
  loc : Str
deriving DecidableEq

/-- Last segment of a pattern, as used by the source via
`pat.lastSegment()`; patterns produced by the parser always have at least
one segment, so the default is never reached on parsed patterns. -/
def lastSegment (p : Pattern) : Segment :=
  p.segments.getLastD ⟨[], false, false⟩

/-- Modelled from the spec: HTTP token characters for the METHOD part,
visible ASCII excluding the RFC 2616 separators (the repository defers to
an internal httpguts helper that is not among the sources). -/
def isTokenChar (c : Char) : Bool :=
  32 < c.toNat && c.toNat < 127 &&
    !([ '(', ')', '<', '>', '@', ',', ';', ':', '\\', '\"', '/', '[', ']',
        '?', '=', '\x7b', '\x7d' ].contains c)

/-- Modelled from the spec: a wildcard name must be a valid identifier,
letters, digits or underscore, not starting with a digit, and non-empty. -/
def validWildcardName (s : Str) : Bool :=
  match s with
  | [] => false
  | c :: rest =>
    (c.isAlpha || c = '_') &&
      (c :: rest).all (fun d => d.isAlphanum || d = '_')

/-- Syntax errors of the spec-modelled pattern parser. -/
inductive ParseErr where
  | emptyPattern
  | invalidMethod
  | missingSlash
  | badWildcard
  | multiNotLast
  | dollarNotLast
  | badWildcardName
  | dupWildcardName
deriving DecidableEq

/-- Modelled from the spec: parses one segment chunk of a pattern path.
The chunk of the form brace-dollar-brace is the end-of-path marker, valid
only as the final segment and stored as the literal slash segment; a chunk
delimited by braces is a wildcard, with a trailing ellipsis marking a
multi wildcard that is valid only as the final segment; any other use of a
brace is a syntax error; everything else is a literal. -/
def parseSegChunk (chunk : Str) (isLast : Bool) (seen : List Str) :
    Except ParseErr (Segment × List Str) :=
  if chunk = str "\x7b$\x7d" then
    if isLast then .ok (⟨str "/", false, false⟩, seen) else .error .dollarNotLast
  else if chunk.head? = some '\x7b' && chunk.getLast? = some '\x7d' then
    let inner := (chunk.drop 1).dropLast
    let multi := decide (inner.reverse.take 3 = str "...")
    let name := if multi then inner.dropLast.dropLast.dropLast else inner
    if multi && !isLast then .error .multiNotLast
    else if !validWildcardName name then .error .badWildcardName
    else if seen.contains name then .error .dupWildcardName
    else .ok (⟨name, true, multi⟩, name :: seen)
  else if chunk.contains '\x7b' || chunk.contains '\x7d' then
    .error .badWildcard
  else
    .ok (⟨chunk, false, false⟩, seen)

/-- Modelled from the spec: parses the list of path chunks into segments.
The final empty chunk produced by a trailing slash becomes the implicit
anonymous multi wildcard; an interior empty chunk is an empty literal. -/
def parseSegs : List Str → List Str → Except ParseErr (List Segment)
  | [], _ => .ok []
  | [chunk], seen =>
    if chunk = [] then .ok [⟨[], true, true⟩]
    else
      match parseSegChunk chunk true seen with
      | .error e => .error e
      | .ok (seg, _) => .ok [seg]
  | chunk :: rest, seen =>
    match parseSegChunk chunk false seen with
    | .error e => .error e
    | .ok (seg, seen') =>
      match parseSegs rest seen' with
      | .error e => .error e
      | .ok segs => .ok (seg :: segs)

/-- Modelled from the spec: splits off the optional METHOD part, which is
one or more token characters followed by at least one space or tab; the
remainder after the separators is the host and path part. -/
def splitMethod (s : Str) : Str × Str :=
  match s.findIdx? (fun c => c = ' ' || c = '\t') with
  | none => ([], s)
  | some i => (s.take i, (s.drop (i + 1)).dropWhile (fun c => c = ' ' || c = '\t'))

/-- Modelled from the spec: the pattern parser, section 4.1.  Grammar
METHOD HOST PATH where METHOD is an optional HTTP token followed by
spaces or tabs, HOST is everything up to the first slash, and PATH starts
with a slash and is split on slashes into segments. -/
def parsePattern (s : Str) : Except ParseErr Pattern :=
  if s = [] then .error .emptyPattern
  else
    let (method, rest) := splitMethod s
    if method ≠ [] && !method.all isTokenChar then .error .invalidMethod
    else
      match rest.findIdx? (fun c => c = '/') with
      | none => .error .missingSlash
      | some i =>
        let host := rest.take i
        let pathStr := rest.drop i
        match parseSegs (splitOnSlash pathStr.tail) [] with
        | .error e => .error e
        | .ok segs => .ok ⟨method, host, segs, s, []⟩

deriving instance DecidableEq for Except

/-- Relationship between the matched-request sets of two patterns, as used
by the specificity rule of the spec (section 4.2). -/
inductive PatRel where
  | equivalent
  | moreGeneral
  | moreSpecific
  | disjoint
  | overlaps
deriving DecidableEq

/-- Modelled from the spec: combines the method-dimension relationship
with the path-dimension relationship.  Opposite directions mean each side
matches requests the other does not, hence overlap. -/
def combineRelationships (r1 r2 : PatRel) : PatRel :=
  match r1 with
  | .equivalent => r2
  | .disjoint => .disjoint
  | .overlaps => if r2 = .disjoint then .disjoint else .overlaps
  | .moreGeneral =>
    match r2 with
    | .equivalent => .moreGeneral
    | .moreSpecific => .overlaps
    | r => r
  | .moreSpecific =>
    match r2 with
    | .equivalent => .moreSpecific
    | .moreGeneral => .overlaps
    | r => r

/-- Modelled from the spec: the method dimension.  Equal methods are
equivalent, an absent method matches every method, GET also matches HEAD,
any other two methods are disjoint. -/
def compareMethods (m1 m2 : Str) : PatRel :=
  if m1 = m2 then .equivalent
  else if m1 = [] then .moreGeneral
  else if m2 = [] then .moreSpecific
  else if m1 = str "GET" && m2 = str "HEAD" then .moreGeneral
  else if m2 = str "GET" && m1 = str "HEAD" then .moreSpecific
  else .disjoint

/-- Modelled from the spec: per-segment comparability (section 4.2).  A
multi wildcard subsumes anything, a single wildcard subsumes a literal,
unequal literals are disjoint, and a single wildcard never matches the
end-of-path marker (stored as the literal slash). -/
def compareSegments (s1 s2 : Segment) : PatRel :=
  if s1.multi && s2.multi then .equivalent
  else if s1.multi then .moreGeneral
  else if s2.multi then .moreSpecific
  else if s1.wild && s2.wild then .equivalent
  else if s1.wild then (if s2.s = str "/" then .disjoint else .moreGeneral)
  else if s2.wild then (if s1.s = str "/" then .disjoint else .moreSpecific)
  else if s1.s = s2.s then .equivalent
  else .disjoint

/-- Modelled from the spec: accumulates per-segment relations left to
right.  The first position that establishes a direction decides the path
relationship (the fork's relaxed precedence: most specific wins, reading
left to right), while a disjoint position makes the whole paths
disjoint. -/
def combineLeftToRight (r1 r2 : PatRel) : PatRel :=
  match r1 with
  | .equivalent => r2
  | .disjoint => .disjoint
  | .overlaps => if r2 = .disjoint then .disjoint else .overlaps
  | r =>
    if r2 = .disjoint then .disjoint else r

/-- Modelled from the spec: walks corresponding segments; when one side is
exhausted the other can only be matched by a trailing multi wildcard,
which subsumes the remainder; otherwise the paths are disjoint. -/
def comparePathsAux : PatRel → List Segment → List Segment → Bool → Bool → PatRel
  | rel, [], [], _, _ => rel
  | rel, [], _ :: _, multi1, _ =>
    if multi1 then combineLeftToRight rel .moreGeneral else .disjoint
  | rel, _ :: _, [], _, multi2 =>
    if multi2 then combineLeftToRight rel .moreSpecific else .disjoint
  | rel, s1 :: r1, s2 :: r2, m1, m2 =>
    let rel' := combineLeftToRight rel (compareSegments s1 s2)
    if rel' = .disjoint then .disjoint else comparePathsAux rel' r1 r2 m1 m2

/-- Modelled from the spec: the path-dimension relationship of two
patterns, evaluated left to right by position. -/
def comparePaths (p1 p2 : Pattern) : PatRel :=
  comparePathsAux .equivalent p1.segments p2.segments
    (lastSegment p1).multi (lastSegment p2).multi

/-- Modelled from the spec: two patterns conflict when their hosts are
equal and the combined method and path relationship is equivalence
(duplicate) or overlap (neither dominates).  Different hosts, including
one empty and one not, never conflict: the host-bearing pattern is
preferred at match time instead (backward-compatibility carve-out). -/
def conflictsWith (p1 p2 : Pattern) : Bool :=
  if p1.host ≠ p2.host then false
  else
    let rel := combineRelationships (compareMethods p1.method p2.method)
      (comparePaths p1 p2)
    rel = .equivalent || rel = .overlaps

/-- Key of the routing index, from the source: a 0-based segment position
and the literal at that position, or empty for a wildcard. -/
structure RoutingIndexKey where
  pos : Nat
  s : Str
deriving DecidableEq

/-- The routing index from the source, with the Go map modelled as an
association list: buckets from keys to the patterns registered under that
key, plus the separate list of patterns ending in a multi wildcard. -/
structure RoutingIndex where
  segments : List (RoutingIndexKey × List Pattern)
  multis : List Pattern
deriving DecidableEq

/-- The zero value of the routing index. -/
def emptyIndex : RoutingIndex := ⟨[], []⟩

/-- Looks up a bucket of the association-list map; a missing key is the
empty bucket, like a Go map's zero value. -/
def bucketGet (m : List (RoutingIndexKey × List Pattern)) (k : RoutingIndexKey) :
    List Pattern :=
  match m.find? (fun e => decide (e.1 = k)) with
  | some e => e.2
  | none => []

/-- Appends a pattern to the bucket of a key, creating the bucket if the
key is absent, like a Go map append. -/
def bucketAdd (m : List (RoutingIndexKey × List Pattern)) (k : RoutingIndexKey)
    (p : Pattern) : List (RoutingIndexKey × List Pattern) :=
  match m with
  | [] => [(k, [p])]
  | e :: rest => if e.1 = k then (e.1, e.2 ++ [p]) :: rest else e :: bucketAdd rest k p

/-- Iterates the loop body of routingIndex.addPattern: records the pattern
under position and literal for a literal segment, and under position and
the empty string for a wildcard segment. -/
def addSegmentKeys (m : List (RoutingIndexKey × List Pattern)) (pos : Nat) :
    List Segment → Pattern → List (RoutingIndexKey × List Pattern)
  | [], _ => m
  | seg :: rest, pat =>
    addSegmentKeys (bucketAdd m ⟨pos, if seg.wild then [] else seg.s⟩ pat) (pos + 1) rest pat

/-- Embeds routingIndex.addPattern from the source: a pattern ending in a
multi wildcard goes to the multis list, any other pattern is recorded in
the segment buckets for each of its positions. -/
def RoutingIndex.addPattern (idx : RoutingIndex) (pat : Pattern) : RoutingIndex :=
  if (lastSegment pat).multi then
    { idx with multis := idx.multis ++ [pat] }
  else
    { idx with segments := addSegmentKeys idx.segments 0 pat.segments pat }

/-- Positions of the literal segments of a pattern, with their text. -/
def litPositions (pos : Nat) : List Segment → List (Nat × Str)
  | [] => []
  | seg :: rest =>
    if seg.wild then litPositions (pos + 1) rest
    else (pos, seg.s) :: litPositions (pos + 1) rest

/-- All patterns stored in any segment bucket of the index. -/
def allIndexed (idx : RoutingIndex) : List Pattern :=
  idx.segments.flatMap (fun e => e.2)

/-- Modelled from the spec: the conflict-candidate query of the routing
index (section 4.2).  Candidates are the multis, always, together with
the intersection over the new pattern's literal positions of the buckets
holding the same literal or a wildcard at that position; a pattern with no
literal position is checked against every indexed pattern. -/
def RoutingIndex.possiblyConflicting (idx : RoutingIndex) (pat : Pattern) :
    List Pattern :=
  match litPositions 0 pat.segments with
  | [] => idx.multis ++ allIndexed idx
  | l :: ls =>
    let base := bucketGet idx.segments ⟨l.1, l.2⟩ ++ bucketGet idx.segments ⟨l.1, []⟩
    idx.multis ++ ls.foldl
      (fun acc l' => acc.filter
        (fun p => (bucketGet idx.segments ⟨l'.1, l'.2⟩ ++
          bucketGet idx.segments ⟨l'.1, []⟩).contains p))
      base

/-- Handlers, modelled as opaque values: either an http.HandlerFunc whose
underlying function value may be nil (the case the source rejects), or any
other handler implementation, tagged so handlers are distinguishable. -/
inductive Handler where
  | handlerFunc (nilFunc : Bool)
  | other (id : Nat)
deriving DecidableEq

/-- Modelled from the spec: the routing tree.  The spec states the trie
branching strategy is an implementation choice as long as lookup follows
the resolution order of section 4.3, so the model stores the registered
pattern and handler pairs in registration order and selects by that
order. -/
abbrev RoutingTree := List (Pattern × Handler)

/-- The ServeMux state from the source: the routing tree and the routing
index, always updated together. -/
structure ServeMux where
  tree : RoutingTree
  index : RoutingIndex
deriving DecidableEq

/-- A fresh ServeMux, as produced by NewServeMux. -/
def emptyMux : ServeMux := ⟨[], emptyIndex⟩

/-- Modelled from the spec: whether the pattern segments match the request
path segments.  On success it returns the bound wildcard values in order
(an anonymous trailing-slash multi binds nothing) and, separately, the
text consumed by a trailing multi wildcard, used to state exactness.  A
multi wildcard needs a non-empty remainder of segments (a subtree pattern
does not match the subtree root without its trailing slash), a single
wildcard matches one non-empty segment, the end-of-path marker matches
exactly the empty segment produced by a final slash, and a literal
matches itself. -/
def matchSegs : List Segment → List Str → Option (List Str × Option Str)
  | [], [] => some ([], none)
  | [], _ :: _ => none
  | seg :: rest, qs =>
    if seg.multi then
      if rest = [] ∧ qs ≠ [] then
        some (if seg.s = [] then [] else [joinSlash qs], some (joinSlash qs))
      else none
    else
      match qs with
      | [] => none
      | q :: qtail =>
        if seg.wild then
          if q = [] then none
          else
            match matchSegs rest qtail with
            | some (bs, c) => some (q :: bs, c)
            | none => none
        else if seg.s = str "/" then
          if q = [] then matchSegs rest qtail else none
        else
          if seg.s = q then matchSegs rest qtail else none

/-- Whether a pattern's path dimension matches a request path. -/
def pathMatch (p : Pattern) (path : Str) : Bool :=
  (matchSegs p.segments (splitPath path)).isSome

/-- Whether a pattern's host dimension accepts a request host: an empty
pattern host matches every host, otherwise hosts must be equal. -/
def hostOK (p : Pattern) (host : Str) : Bool :=
  p.host = [] || p.host = host

/-- Whether a pattern's method accepts a request method: an absent method
matches everything, GET also matches HEAD, otherwise exact equality. -/
def methodMatches (pm m : Str) : Bool :=
  pm = [] || pm = m || (pm = str "GET" && m = str "HEAD")

/-- Rank of a pattern method for the resolution order: an exact method
before GET answering a HEAD request, before an absent method. -/
def methodRank (pm m : Str) : Nat :=
  if pm = m then 0
  else if m = str "HEAD" && pm = str "GET" then 1
  else 2

/-- Rank of a segment for the resolution order: a literal (including the
end-of-path marker) before a single wildcard before a multi wildcard. -/
def segRank (seg : Segment) : Nat :=
  if seg.multi then 2 else if seg.wild then 1 else 0

/-- Segment-rank word of a pattern, compared left to right. -/
def rankWord (p : Pattern) : List Nat :=
  p.segments.map segRank

/-- Strict lexicographic order on rank words; a word that is a prefix of
another carries no preference (such ties cannot arise between two
registered patterns matching the same path). -/
def lexLtNat : List Nat → List Nat → Bool
  | _, [] => false
  | [], _ :: _ => false
  | a :: as, b :: bs => a < b || (a = b && lexLtNat as bs)

/-- Whether the new node is strictly preferred over the current one for a
request method: lower method rank first, then the lexicographically
smaller segment-rank word. -/
def preferNode (m : Str) (cur new : Pattern × Handler) : Bool :=
  methodRank new.1.method m < methodRank cur.1.method m ||
    (methodRank new.1.method m = methodRank cur.1.method m &&
      lexLtNat (rankWord new.1) (rankWord cur.1))

/-- Selects the best matching node from a candidate list, keeping the
earliest-registered node among equally ranked ones. -/
def bestNodeAux (m : Str) (qs : List Str) (cur : Option (Pattern × Handler)) :
    List (Pattern × Handler) → Option (Pattern × Handler)
  | [] => cur
  | n :: rest =>
    if methodMatches n.1.method m && (matchSegs n.1.segments qs).isSome then
      match cur with
      | none => bestNodeAux m qs (some n) rest
      | some c =>
        if preferNode m c n then bestNodeAux m qs (some n) rest
        else bestNodeAux m qs cur rest
    else bestNodeAux m qs cur rest

/-- Modelled from the spec: the routing-tree lookup (section 4.3).
Patterns carrying the request's host are tried first, and only if none of
them matches are the host-less patterns considered (the match-time side of
the host tie-break); within a group the resolution order is method rank,
then literal over single wildcard over multi wildcard, left to right.  The
returned matches are the bound wildcard values of the winning pattern. -/
def treeMatch (t : RoutingTree) (host m path : Str) :
    Option (Pattern × Handler) × List Str :=
  let qs := splitPath path
  let fromHost :=
    if host ≠ [] then bestNodeAux m qs none (t.filter (fun n => decide (n.1.host = host)))
    else none
  let n :=
    match fromHost with
    | some r => some r
    | none => bestNodeAux m qs none (t.filter (fun n => decide (n.1.host = [])))
  match n with
  | none => (none, [])
  | some r => (some r, ((matchSegs r.1.segments qs).map (fun x => x.1)).getD [])

/-- Inserts a string into a set modelled as a duplicate-free list. -/
def insertIfAbsent (x : Str) (ms : List Str) : List Str :=
  if ms.contains x then ms else ms ++ [x]

/-- Modelled from the spec: collects the method of every registered
pattern whose host and path dimensions match, ignoring the method
dimension. -/
def collectMethods : RoutingTree → Str → Str → List Str → List Str
  | [], _, _, ms => ms
  | n :: rest, host, path, ms =>
    collectMethods rest host path
      (if hostOK n.1 host && pathMatch n.1 path then insertIfAbsent n.1.method ms
       else ms)

/-- Modelled from the spec: the tree-level auxiliary query behind the
method-mismatch report; after collecting, HEAD is added whenever GET is
present, because a GET pattern also answers HEAD requests. -/
def treeMatchingMethods (t : RoutingTree) (host path : Str) (ms : List Str) :
    List Str :=
  let ms' := collectMethods t host path ms
  if ms'.contains (str "GET") then insertIfAbsent (str "HEAD") ms' else ms'

/-- Processes path segments for lexical cleaning: empty and dot segments
are dropped, a dot-dot segment pops the previous one (staying at the root
when there is none), anything else is kept. -/
def cleanSegsAux : List Str → List Str → List Str
  | [], acc => acc.reverse
  | s :: rest, acc =>
    if s = [] || s = str "." then cleanSegsAux rest acc
    else if s = str ".." then cleanSegsAux rest acc.tail
    else cleanSegsAux rest (s :: acc)

/-- Models the external Go library function path.Clean, restricted to
rooted paths, the only form the source's cleanPath passes it: dot and
dot-dot segments and repeated slashes are resolved lexically and any
trailing slash is dropped, with the root path as the cleaned form of an
emptied path. -/
def pathClean (p : Str) : Str :=
  let segs := cleanSegsAux (splitOnSlash p.tail) []
  if segs = [] then str "/" else '/' :: joinSlash segs

/-- Embeds cleanPath from the source: an empty path becomes the root, a
leading slash is ensured, the path is cleaned, and a trailing slash is put
back unless the cleaned path is the root.  The source's fast path and its
general branch both produce the cleaned path plus a slash, so they are
collapsed here. -/
def cleanPath (p : Str) : Str :=
  if p = [] then str "/"
  else
    let p' := if p.head? ≠ some '/' then '/' :: p else p
    let np := pathClean p'
    if p'.getLast? = some '/' && np ≠ str "/" then np ++ str "/" else np

/-- Models the external Go library function net.SplitHostPort for the
plain host-colon-port form: the host is the text before the last colon;
bracketed IPv6 forms are treated as errors, which stripHostPort maps to
returning the input unchanged. -/
def splitHostPort (h : Str) : Option Str :=
  match h.reverse.findIdx? (fun c => decide (c = ':')) with
  | none => none
  | some i =>
    let host := h.take (h.length - 1 - i)
    if host.contains '[' || host.contains ']' || host.contains ':' then none
    else some host

/-- Embeds stripHostPort from the source: a host without a colon is
returned unchanged, otherwise the port is split off, with the input
returned unchanged on a split error. -/
def stripHostPort (h : Str) : Str :=
  if !h.contains ':' then h
  else
    match splitHostPort h with
    | none => h
    | some host => host

/-- Embeds exactMatch from the source, over the matched node's pattern: a
missing node is not exact; a pattern not ending in a multi wildcard is
always exact; a multi-ending pattern is exact only when the path ends in a
slash and the pattern has as many segments as the path has slashes. -/
def exactMatch (n : Option Pattern) (path : Str) : Bool :=
  match n with
  | none => false
  | some p =>
    if !(lastSegment p).multi then true
    else if path ≠ [] && path.getLast? ≠ some '/' then false
    else decide (p.segments.length = path.count '/')

/-- The parts of a Go url.URL that the source consults. -/
structure URL where
  host : Str
  path : Str
  rawQuery : Str
deriving DecidableEq

/-- The parts of a Go http.Request that the source consults; the url
field's path plays the role of EscapedPath. -/
structure Request where
  method : Str
  host : Str
  url : URL
deriving DecidableEq

/-- Embeds matchOrRedirect from the source: looks up the tree; when the
match is not exact, a URL was supplied and the path has no trailing slash,
the match is retried with a slash appended, and an exact match there turns
into a redirect to the cleaned URL path plus a slash, with no node
returned. -/
def ServeMux.matchOrRedirect (mux : ServeMux) (host method path : Str)
    (u : Option URL) : Option (Pattern × Handler) × List Str × Option URL :=
  let nm := treeMatch mux.tree host method path
  if !exactMatch (nm.1.map (fun x => x.1)) path && u.isSome &&
      !decide (path.getLast? = some '/') then
    let path' := path ++ str "/"
    let nm2 := treeMatch mux.tree host method path'
    if exactMatch (nm2.1.map (fun x => x.1)) path' then
      match u with
      | some u' => (none, [], some ⟨[], cleanPath u'.path ++ str "/", u'.rawQuery⟩)
      | none => (nm.1, nm.2, none)
    else (nm.1, nm.2, none)
  else (nm.1, nm.2, none)

/-- Embeds matchingMethods from the source: collects the methods matching
the path, then also those matching the path with a trailing slash appended
when the path has none (mirroring the redirect retry), and returns the
sorted list of the collected set. -/
def ServeMux.matchingMethods (mux : ServeMux) (host path : Str) : List Str :=
  let ms := treeMatchingMethods mux.tree host path []
  let ms' :=
    if !decide (path.getLast? = some '/') then
      treeMatchingMethods mux.tree host (path ++ str "/") ms
    else ms
  ms'.insertionSort (fun a b => a ≤ b)

/-- Registration errors of the source's registerErr. -/
inductive RegError where
  | invalidPattern
  | nilHandler
  | syntaxErr (e : ParseErr)
  | conflict (newPat oldPat : Pattern)
deriving DecidableEq

/-- First registered candidate the new pattern conflicts with, mirroring
the callback loop over possiblyConflictingPatterns. -/
def firstConflict (pat : Pattern) : List Pattern → Option Pattern
  | [] => none
  | p2 :: rest => if conflictsWith pat p2 then some p2 else firstConflict pat rest

/-- Embeds the locked section of registerErr: every conflict candidate is
checked first, and only when all pass is the pattern inserted into the
tree and the index together. -/
def ServeMux.registerPattern (mux : ServeMux) (pat : Pattern) (h : Handler) :
    ServeMux × Option RegError :=
  match firstConflict pat (mux.index.possiblyConflicting pat) with
  | some p2 => (mux, some (.conflict pat p2))
  | none => (⟨mux.tree ++ [(pat, h)], mux.index.addPattern pat⟩, none)

/-- Embeds registerErr from the source: an empty pattern string and a nil
handler (including a non-nil interface holding a nil HandlerFunc) are
rejected before parsing; then the pattern is parsed, its registration
location recorded (runtime.Caller is modelled by its failure fallback
text, used only diagnostically), and the conflict check and insertion
run. -/
def ServeMux.registerErr (mux : ServeMux) (patstr : Str)
    (handler : Option Handler) : ServeMux × Option RegError :=
  if patstr = [] then (mux, some .invalidPattern)
  else
    match handler with
    | none => (mux, some .nilHandler)
    | some h =>
      if h = .handlerFunc true then (mux, some .nilHandler)
      else
        match parsePattern patstr with
        | .error e => (mux, some (.syntaxErr e))
        | .ok pat => mux.registerPattern { pat with loc := str "unknown location" } h

/-- Outcome of findHandler, naming the four kinds of handler the source
returns: an internally generated redirect, a method-not-allowed responder
carrying the Allow list, the not-found handler, or a registered handler
with its pattern and wildcard matches. -/
inductive FindResult where
  | redirect (u : URL) (patStr : Str)
  | methodNotAllowed (allowed : List Str)
  | notFound
  | found (h : Handler) (patStr : Str) (p : Pattern) (binds : List Str)
deriving DecidableEq

/-- The tail of findHandler: with no matching node, a non-empty set of
otherwise-matching methods gives method-not-allowed, an empty one gives
not-found; otherwise the matched handler and pattern are returned. -/
def finishFind (mux : ServeMux) (host path : Str)
    (n : Option (Pattern × Handler)) (binds : List Str) : FindResult :=
  match n with
  | none =>
    let allowed := mux.matchingMethods host path
    if allowed ≠ [] then .methodNotAllowed allowed else .notFound
  | some ph => .found ph.2 ph.1.patstr ph.1 binds

/-- Embeds findHandler from the source.  CONNECT requests keep host and
path verbatim: the trailing-slash redirect is probed with the URL host,
then the match is redone with the request host and no redirect logic.  All
other requests get the port stripped and the path cleaned, then the match
with redirect logic runs, an uncleaned path redirects to the cleaned one,
and the no-node case is resolved through the matching-methods query (with
the host variable still holding the URL host only in the CONNECT
branch). -/
def ServeMux.findHandler (mux : ServeMux) (r : Request) : FindResult :=
  let escapedPath := r.url.path
  if r.method = str "CONNECT" then
    let m1 := mux.matchOrRedirect r.url.host r.method escapedPath (some r.url)
    match m1.2.2 with
    | some u' => .redirect u' u'.path
    | none =>
      let m2 := mux.matchOrRedirect r.host r.method escapedPath none
      finishFind mux r.url.host escapedPath m2.1 m2.2.1
  else
    let host := stripHostPort r.host
    let path := cleanPath escapedPath
    let m1 := mux.matchOrRedirect host r.method path (some r.url)
    match m1.2.2 with
    | some u' => .redirect u' u'.path
    | none =>
      if path ≠ escapedPath then
        .redirect ⟨[], path, r.url.rawQuery⟩
          (match m1.1 with | some nn => nn.1.patstr | none => [])
      else finishFind mux host path m1.1 m1.2.1



/-- The host-bearing pattern of a pair, the match-time tie-break winner. -/
def hostBearing (P Q : Pattern) : Pattern :=
  if P.host = [] then Q else P

/-- Proper index-key string of a segment: its literal text, or the empty
string for a wildcard, matching the loop of routingIndex.addPattern. -/
def properKeyStr (seg : Segment) : Str :=
  if seg.wild then [] else seg.s

/-- Shape invariant of the routing index (claim C9): the multis list holds
only multi-ending patterns; every bucket member is a non-multi pattern
stored under the key of one of its own positions with the proper literal
or wildcard string; and a non-multi pattern present anywhere in the index
is present in the bucket of every position it occupies. -/
def IndexInv (idx : RoutingIndex) : Prop :=
  (∀ p ∈ idx.multis, (lastSegment p).multi = true) ∧
  (∀ k p, p ∈ bucketGet idx.segments k →
    (lastSegment p).multi = false ∧
    ∃ h : k.pos < p.segments.length,
      k.s = properKeyStr (p.segments.get ⟨k.pos, h⟩)) ∧
  (∀ p, (∃ k, p ∈ bucketGet idx.segments k) →
    ∀ i (h : i < p.segments.length),
      p ∈ bucketGet idx.segments ⟨i, properKeyStr (p.segments.get ⟨i, h⟩)⟩)

/-- The mux holding only the subtree pattern for images, used by the
redirect scenarios. -/
def muxImages : ServeMux :=
  (emptyMux.registerErr (str "/images/") (some (.other 1))).1

/-- The mux holding only the pattern "GET /x", used by the method-mismatch
scenario. -/
def muxGetX : ServeMux :=
  (emptyMux.registerErr (str "GET /x") (some (.other 1))).1

/-- The mux holding only the subtree pattern "GET /x/", used by the
trailing-slash half of the matching-methods query. -/
def muxGetXSlash : ServeMux :=
  (emptyMux.registerErr (str "GET /x/") (some (.other 1))).1

/-- C1: on an empty ServeMux, registering the pattern "/a/\x7bb\x7d" and then
the pattern "/\x7bc\x7d/d" both succeed, while registering "/a" and then "/a"
again makes the second registration fail with a pattern-conflict error,
leaves the mux unchanged, and keeps the first handler in effect for the
path "/a". -/
theorem claim1_register_overlap_ok_duplicate_fails :
    (emptyMux.registerErr (str "/a/\x7bb\x7d") (some (.other 1))).2 = none ∧
    ((emptyMux.registerErr (str "/a/\x7bb\x7d") (some (.other 1))).1.registerErr
      (str "/\x7bc\x7d/d") (some (.other 2))).2 = none ∧
    (emptyMux.registerErr (str "/a") (some (.other 1))).2 = none ∧
    (match ((emptyMux.registerErr (str "/a") (some (.other 1))).1.registerErr
        (str "/a") (some (.other 2))).2 with
      | some (.conflict _ _) => true
      | _ => false) = true ∧
    ((emptyMux.registerErr (str "/a") (some (.other 1))).1.registerErr
      (str "/a") (some (.other 2))).1 =
      (emptyMux.registerErr (str "/a") (some (.other 1))).1 ∧
    ((treeMatch ((emptyMux.registerErr (str "/a") (some (.other 1))).1.registerErr
        (str "/a") (some (.other 2))).1.tree [] (str "GET") (str "/a")).1.map
      (fun x => x.2)) = some (.other 1) := by
  decide

/-- C2: on an empty ServeMux, registering "GET /" and then "/index.html"
makes the second registration fail with a pattern-conflict error; the
conflict check reports a conflict between the two parsed patterns, and
indeed both patterns match a GET request for "/index.html". -/
theorem claim2_get_root_conflicts_with_index :
    (emptyMux.registerErr (str "GET /") (some (.other 1))).2 = none ∧
    (match ((emptyMux.registerErr (str "GET /") (some (.other 1))).1.registerErr
        (str "/index.html") (some (.other 2))).2 with
      | some (.conflict _ _) => true
      | _ => false) = true ∧
    (match parsePattern (str "GET /"), parsePattern (str "/index.html") with
      | .ok p1, .ok p2 =>
        conflictsWith p2 p1 &&
        methodMatches p1.method (str "GET") && pathMatch p1 (str "/index.html") &&
        methodMatches p2.method (str "GET") && pathMatch p2 (str "/index.html")
      | _, _ => false) = true := by
  decide

/-- Case analysis of registerErr: either the call failed and returned the
mux unchanged, or it reported no error.  This mirrors the source control
flow, where every early return precedes the tree and index insertions. -/
theorem registerErr_cases (mux : ServeMux) (patstr : Str)
    (handler : Option Handler) :
    (mux.registerErr patstr handler).1 = mux ∨
    (mux.registerErr patstr handler).2 = none := by
  unfold ServeMux.registerErr
  split
  · exact Or.inl rfl
  · split
    · exact Or.inl rfl
    · split
      · exact Or.inl rfl
      · split
        · exact Or.inl rfl
        · unfold ServeMux.registerPattern
          split
          · exact Or.inl rfl
          · exact Or.inr rfl

/-- C6: registration is atomic; whenever registerErr returns an error, the
routing tree and the routing index are both exactly as they were before
the call, insertion happening only after every conflict candidate has
passed the check. -/
theorem claim6_register_atomic (mux : ServeMux) (patstr : Str)
    (handler : Option Handler) (e : RegError)
    (he : (mux.registerErr patstr handler).2 = some e) :
    (mux.registerErr patstr handler).1.tree = mux.tree ∧
    (mux.registerErr patstr handler).1.index = mux.index := by
  rcases registerErr_cases mux patstr handler with h | h
  · rw [h]
    exact ⟨rfl, rfl⟩
  · rw [h] at he
    exact Option.noConfusion he

/-- Closed instance of C6: registering a duplicate pattern fails and the
mux is unchanged. -/
theorem claim6_register_atomic_witness :
    (((emptyMux.registerErr (str "/a") (some (.other 1))).1.registerErr
        (str "/a") (some (.other 2))).2).isSome = true ∧
    (((emptyMux.registerErr (str "/a") (some (.other 1))).1.registerErr
        (str "/a") (some (.other 2))).1.tree =
      (emptyMux.registerErr (str "/a") (some (.other 1))).1.tree ∧
    ((emptyMux.registerErr (str "/a") (some (.other 1))).1.registerErr
        (str "/a") (some (.other 2))).1.index =
      (emptyMux.registerErr (str "/a") (some (.other 1))).1.index) :=
  ⟨by decide,
    claim6_register_atomic _ _ _
      (.conflict
        ⟨[], [], [⟨str "a", false, false⟩], str "/a", str "unknown location"⟩
        ⟨[], [], [⟨str "a", false, false⟩], str "/a", str "unknown location"⟩)
      (by decide)⟩

/-- C7: registerErr rejects an empty pattern string or a nil handler,
including a non-nil interface holding a nil HandlerFunc, before parsing:
the state is unchanged and the error is one of the two pre-parse errors,
never a syntax or conflict error. -/
theorem claim7_reject_before_parse (mux : ServeMux) (patstr : Str)
    (handler : Option Handler)
    (h : patstr = [] ∨ handler = none ∨ handler = some (.handlerFunc true)) :
    mux.registerErr patstr handler = (mux, some .invalidPattern) ∨
    mux.registerErr patstr handler = (mux, some .nilHandler) := by
  unfold ServeMux.registerErr
  by_cases h0 : patstr = []
  · rw [if_pos h0]
    exact Or.inl rfl
  · rw [if_neg h0]
    rcases h with h | h | h
    · exact absurd h h0
    · subst h
      exact Or.inr rfl
    · subst h
      exact Or.inr rfl

/-- Closed instance of C7: a nil HandlerFunc inside a non-nil interface is
rejected as a nil handler with the mux unchanged. -/
theorem claim7_reject_before_parse_witness :
    ((str "/a" = ([] : Str)) ∨ (some (Handler.handlerFunc true) : Option Handler) = none ∨
      (some (Handler.handlerFunc true) : Option Handler) = some (.handlerFunc true)) ∧
    (emptyMux.registerErr (str "/a") (some (.handlerFunc true)) =
        (emptyMux, some .invalidPattern) ∨
      emptyMux.registerErr (str "/a") (some (.handlerFunc true)) =
        (emptyMux, some .nilHandler)) :=
  ⟨Or.inr (Or.inr rfl),
    claim7_reject_before_parse emptyMux (str "/a") (some (.handlerFunc true))
      (Or.inr (Or.inr rfl))⟩

/-- Patterns with different hosts never conflict. -/
theorem conflictsWith_of_host_ne (p q : Pattern) (h : p.host ≠ q.host) :
    conflictsWith p q = false := by
  unfold conflictsWith
  rw [if_pos h]

/-- A pattern conflicting with no candidate passes the whole check. -/
theorem firstConflict_eq_none (pat : Pattern) (l : List Pattern)
    (h : ∀ q ∈ l, conflictsWith pat q = false) :
    firstConflict pat l = none := by
  induction l with
  | nil => rfl
  | cons q rest ih =>
    unfold firstConflict
    rw [h q (List.mem_cons_self q rest)]
    exact ih (fun q' hq' => h q' (List.mem_cons_of_mem q hq'))

/-- Every pattern stored in a bucket is stored in the index. -/
theorem bucketGet_subset_allIndexed (idx : RoutingIndex) (k : RoutingIndexKey)
    (q : Pattern) (h : q ∈ bucketGet idx.segments k) : q ∈ allIndexed idx := by
  unfold bucketGet at h
  cases hf : idx.segments.find? (fun e => decide (e.1 = k)) with
  | none => rw [hf] at h; cases h
  | some e =>
    rw [hf] at h
    have he : e ∈ idx.segments := List.mem_of_find?_eq_some hf
    exact List.mem_flatMap.mpr ⟨e, he, h⟩

/-- Folding candidate filters only shrinks the candidate set. -/
theorem foldl_filter_subset (q : Pattern) (f : Nat × Str → Pattern → Bool) :
    ∀ (ls : List (Nat × Str)) (acc : List Pattern),
      q ∈ ls.foldl (fun acc l' => acc.filter (f l')) acc → q ∈ acc := by
  intro ls
  induction ls with
  | nil => intro acc h; exact h
  | cons l' rest ih =>
    intro acc h
    have := ih (acc.filter (f l')) h
    exact List.mem_of_mem_filter this

/-- Every conflict candidate produced by the index query is either a multi
pattern or stored in some segment bucket. -/
theorem mem_possiblyConflicting (idx : RoutingIndex) (pat q : Pattern)
    (h : q ∈ idx.possiblyConflicting pat) :
    q ∈ idx.multis ∨ q ∈ allIndexed idx := by
  unfold RoutingIndex.possiblyConflicting at h
  cases hl : litPositions 0 pat.segments with
  | nil =>
    rw [hl] at h
    exact List.mem_append.mp h
  | cons l ls =>
    rw [hl] at h
    rcases List.mem_append.mp h with h' | h'
    · exact Or.inl h'
    · have hb := foldl_filter_subset q _ ls _ h'
      rcases List.mem_append.mp hb with hb' | hb'
      · exact Or.inr (bucketGet_subset_allIndexed idx _ q hb')
      · exact Or.inr (bucketGet_subset_allIndexed idx _ q hb')

/-- Adding a pattern to a bucket adds no other pattern to the map. -/
theorem mem_flatMap_bucketAdd (m : List (RoutingIndexKey × List Pattern))
    (k : RoutingIndexKey) (p q : Pattern)
    (h : q ∈ (bucketAdd m k p).flatMap (fun e => e.2)) :
    q ∈ m.flatMap (fun e => e.2) ∨ q = p := by
  induction m with
  | nil =>
    simp [bucketAdd] at h
    exact Or.inr h
  | cons e rest ih =>
    unfold bucketAdd at h
    by_cases he : e.1 = k
    · rw [if_pos he] at h
      simp only [List.flatMap_cons, List.mem_append] at h ⊢
      rcases h with (h | h) | h
      · exact Or.inl (Or.inl h)
      · simp at h; exact Or.inr h
      · exact Or.inl (Or.inr h)
    · rw [if_neg he] at h
      simp only [List.flatMap_cons, List.mem_append] at h ⊢
      rcases h with h | h
      · exact Or.inl (Or.inl h)
      · rcases ih h with h' | h'
        · exact Or.inl (Or.inr h')
        · exact Or.inr h'

/-- Recording a pattern under its segment keys adds no other pattern. -/
theorem mem_flatMap_addSegmentKeys (p q : Pattern) :
    ∀ (segs : List Segment) (m : List (RoutingIndexKey × List Pattern)) (pos : Nat),
      q ∈ (addSegmentKeys m pos segs p).flatMap (fun e => e.2) →
      q ∈ m.flatMap (fun e => e.2) ∨ q = p := by
  intro segs
  induction segs with
  | nil => intro m pos h; exact Or.inl h
  | cons seg rest ih =>
    intro m pos h
    unfold addSegmentKeys at h
    rcases ih _ _ h with h' | h'
    · exact mem_flatMap_bucketAdd m _ p q h'
    · exact Or.inr h'

/-- After adding one pattern to the empty index, that pattern is the only
one the index can produce as a conflict candidate. -/
theorem mem_addPattern_empty (p q : Pattern)
    (h : q ∈ (emptyIndex.addPattern p).multis ∨ q ∈ allIndexed (emptyIndex.addPattern p)) :
    q = p := by
  unfold RoutingIndex.addPattern at h
  by_cases hm : (lastSegment p).multi
  · rw [if_pos hm] at h
    rcases h with h | h
    · simp [emptyIndex] at h
      exact h
    · simp [allIndexed, emptyIndex] at h
  · rw [if_neg hm] at h
    rcases h with h | h
    · simp [emptyIndex] at h
    · unfold allIndexed at h
      simp only [emptyIndex] at h
      rcases mem_flatMap_addSegmentKeys p q p.segments [] 0 h with h' | h'
      · simp at h'
      · exact h'

/-- The empty index produces no conflict candidates. -/
theorem possiblyConflicting_empty (pat : Pattern) :
    emptyIndex.possiblyConflicting pat = [] := by
  unfold RoutingIndex.possiblyConflicting
  cases hl : litPositions 0 pat.segments with
  | nil => rfl
  | cons l ls =>
    simp only [emptyIndex]
    have hfold : ∀ (ls' : List (Nat × Str)),
        ls'.foldl (fun (acc : List Pattern) l' =>
          acc.filter (fun p => (bucketGet [] ⟨l'.1, l'.2⟩ ++
            bucketGet [] ⟨l'.1, []⟩).contains p)) [] = [] := by
      intro ls'
      induction ls' with
      | nil => rfl
      | cons x rest ih => simpa using ih
    simpa using hfold ls

/-- Registering any pattern on a fresh mux succeeds and yields the
one-entry tree and index. -/
theorem registerPattern_empty (p : Pattern) (h : Handler) :
    emptyMux.registerPattern p h =
      (⟨[(p, h)], emptyIndex.addPattern p⟩, none) := by
  unfold ServeMux.registerPattern
  have : emptyMux.index.possiblyConflicting p = [] := possiblyConflicting_empty p
  rw [this]
  rfl

/-- In a two-entry tree, a pattern carrying the request host that matches
the method and path wins the lookup over a pattern with a different (in
particular, empty) host, in either registration order. -/
theorem treeMatch_two_hostfirst (A B : Pattern) (hA hB : Handler)
    (host m path : Str)
    (h1 : A.host = host) (h2 : host ≠ []) (h3 : B.host ≠ host)
    (h4 : methodMatches A.method m = true)
    (h5 : (matchSegs A.segments (splitPath path)).isSome = true) :
    (treeMatch [(A, hA), (B, hB)] host m path).1 = some (A, hA) ∧
    (treeMatch [(B, hB), (A, hA)] host m path).1 = some (A, hA) := by
  have hfb : (decide (B.host = host)) = false := by simp [h3]
  simp [treeMatch, List.filter, bestNodeAux, h1, hfb, h2, h4, h5]

/-- C3: when the method and path dimensions of two patterns would make
them conflict but exactly one of the two has a non-empty host, registering
both on a fresh mux succeeds in either order, and any request matched by
both patterns is dispatched to the host-bearing one. -/
theorem claim3_host_carveout (P Q : Pattern) (h1 h2 : Handler)
    (hconf : combineRelationships (compareMethods P.method Q.method)
        (comparePaths P Q) = .equivalent ∨
      combineRelationships (compareMethods P.method Q.method)
        (comparePaths P Q) = .overlaps)
    (hhost : (P.host = [] ∧ Q.host ≠ []) ∨ (P.host ≠ [] ∧ Q.host = [])) :
    (emptyMux.registerPattern P h1).2 = none ∧
    ((emptyMux.registerPattern P h1).1.registerPattern Q h2).2 = none ∧
    (emptyMux.registerPattern Q h2).2 = none ∧
    ((emptyMux.registerPattern Q h2).1.registerPattern P h1).2 = none ∧
    ∀ host m path,
      hostOK P host = true → methodMatches P.method m = true →
        pathMatch P path = true →
      hostOK Q host = true → methodMatches Q.method m = true →
        pathMatch Q path = true →
      ((treeMatch ((emptyMux.registerPattern P h1).1.registerPattern Q h2).1.tree
          host m path).1.map (fun x => x.1) = some (hostBearing P Q) ∧
        (treeMatch ((emptyMux.registerPattern Q h2).1.registerPattern P h1).1.tree
          host m path).1.map (fun x => x.1) = some (hostBearing P Q)) := by
  have hPQ : P.host ≠ Q.host := by
    rcases hhost with ⟨hp, hq⟩ | ⟨hp, hq⟩
    · rw [hp]; exact fun h => hq h.symm
    · rw [hq]; exact hp
  have hQP : Q.host ≠ P.host := fun h => hPQ h.symm
  have regP := registerPattern_empty P h1
  have regQ := registerPattern_empty Q h2
  have regQ2 : ((emptyMux.registerPattern P h1).1.registerPattern Q h2).2 = none ∧
      ((emptyMux.registerPattern P h1).1.registerPattern Q h2).1.tree =
        [(P, h1), (Q, h2)] := by
    rw [regP]
    unfold ServeMux.registerPattern
    have hnone : firstConflict Q
        ((emptyIndex.addPattern P).possiblyConflicting Q) = none := by
      apply firstConflict_eq_none
      intro q hq
      have := mem_addPattern_empty P q (mem_possiblyConflicting _ Q q hq)
      rw [this]
      exact conflictsWith_of_host_ne Q P hQP
    rw [hnone]
    exact ⟨rfl, rfl⟩
  have regP2 : ((emptyMux.registerPattern Q h2).1.registerPattern P h1).2 = none ∧
      ((emptyMux.registerPattern Q h2).1.registerPattern P h1).1.tree =
        [(Q, h2), (P, h1)] := by
    rw [regQ]
    unfold ServeMux.registerPattern
    have hnone : firstConflict P
        ((emptyIndex.addPattern Q).possiblyConflicting P) = none := by
      apply firstConflict_eq_none
      intro q hq
      have := mem_addPattern_empty Q q (mem_possiblyConflicting _ P q hq)
      rw [this]
      exact conflictsWith_of_host_ne P Q hPQ
    rw [hnone]
    exact ⟨rfl, rfl⟩
  refine ⟨by rw [regP], regQ2.1, by rw [regQ], regP2.1, ?_⟩
  intro host m path hPh hPm hPp hQh hQm hQp
  rw [regQ2.2, regP2.2]
  rcases hhost with ⟨hp, hq⟩ | ⟨hp, hq⟩
  · -- Q carries the host.
    have hB : hostBearing P Q = Q := by unfold hostBearing; rw [if_pos hp]
    have hQhost : Q.host = host := by
      unfold hostOK at hQh
      rcases (Bool.or_eq_true _ _).mp hQh with h | h
      · exact absurd (by exact decide_eq_true_iff.mp h) hq
      · exact decide_eq_true_iff.mp h
    have hne : host ≠ [] := by rw [← hQhost]; exact hq
    have hPne : P.host ≠ host := by rw [hp]; exact fun h => hne h.symm
    have hd := treeMatch_two_hostfirst Q P h2 h1 host m path hQhost hne hPne hQm hQp
    rw [hB, hd.2, hd.1]
    exact ⟨rfl, rfl⟩
  · -- P carries the host.
    have hB : hostBearing P Q = P := by unfold hostBearing; rw [if_neg hp]
    have hPhost : P.host = host := by
      unfold hostOK at hPh
      rcases (Bool.or_eq_true _ _).mp hPh with h | h
      · exact absurd (by exact decide_eq_true_iff.mp h) hp
      · exact decide_eq_true_iff.mp h
    have hne : host ≠ [] := by rw [← hPhost]; exact hp
    have hQne : Q.host ≠ host := by rw [hq]; exact fun h => hne h.symm
    have hd := treeMatch_two_hostfirst P Q h1 h2 host m path hPhost hne hQne hPm hPp
    rw [hB, hd.1, hd.2]
    exact ⟨rfl, rfl⟩

/-- Closed instance of C3: a host-bearing copy of "/a" and a host-less
"/a" would be duplicates, yet both register fine in either order, and a
request to that host for "/a" is dispatched to the host-bearing pattern. -/
theorem claim3_host_carveout_witness :
    (emptyMux.registerPattern
        ⟨[], str "example.com", [⟨str "a", false, false⟩], str "example.com/a", []⟩
        (.other 1)).2 = none ∧
    ((emptyMux.registerPattern
        ⟨[], str "example.com", [⟨str "a", false, false⟩], str "example.com/a", []⟩
        (.other 1)).1.registerPattern
        ⟨[], [], [⟨str "a", false, false⟩], str "/a", []⟩ (.other 2)).2 = none ∧
    (treeMatch ((emptyMux.registerPattern
        ⟨[], str "example.com", [⟨str "a", false, false⟩], str "example.com/a", []⟩
        (.other 1)).1.registerPattern
        ⟨[], [], [⟨str "a", false, false⟩], str "/a", []⟩ (.other 2)).1.tree
      (str "example.com") (str "GET") (str "/a")).1.map (fun x => x.1) =
      some (hostBearing
        ⟨[], str "example.com", [⟨str "a", false, false⟩], str "example.com/a", []⟩
        ⟨[], [], [⟨str "a", false, false⟩], str "/a", []⟩) := by
  have h := claim3_host_carveout
    ⟨[], str "example.com", [⟨str "a", false, false⟩], str "example.com/a", []⟩
    ⟨[], [], [⟨str "a", false, false⟩], str "/a", []⟩
    (.other 1) (.other 2)
    (by decide)
    (Or.inr (by decide))
  exact ⟨h.1, h.2.1, ((h.2.2.2.2 (str "example.com") (str "GET") (str "/a")
    (by decide) (by decide) (by decide) (by decide) (by decide) (by decide))).1⟩

/-- Counterexample to C4 as stated: with only "/images/" registered, the
lookup for "/images/thumb" does not return the no-match outcome; the
subtree pattern matches it, so the node is present. -/
theorem claim4_counterexample :
    ¬((muxImages.matchOrRedirect [] (str "GET") (str "/images/thumb")
        (some ⟨[], str "/images/thumb", []⟩)).1 = none) := by
  decide

/-- C4 (amended): with only "/images/" registered, the lookup for
"/images" returns a redirect to "/images/" with no node, while the lookup
for "/images/thumb" is matched by the subtree pattern "/images/" itself
with no redirect (rather than being a no-match); and in general, for a
supplied URL whose path is the already-clean lookup path, matchOrRedirect
signals a redirect to the path plus a slash exactly when the path does not
end in a slash, its match is not exact, and the path plus a slash has an
exact match. -/
theorem claim4_redirect_contract :
    muxImages.matchOrRedirect [] (str "GET") (str "/images")
        (some ⟨[], str "/images", []⟩) =
      (none, [], some ⟨[], str "/images/", []⟩) ∧
    ((muxImages.matchOrRedirect [] (str "GET") (str "/images/thumb")
        (some ⟨[], str "/images/thumb", []⟩)).1.map (fun x => x.1.patstr) =
      some (str "/images/") ∧
     (muxImages.matchOrRedirect [] (str "GET") (str "/images/thumb")
        (some ⟨[], str "/images/thumb", []⟩)).2.2 = none) ∧
    ∀ (mux : ServeMux) (host m path rq : Str),
      cleanPath path = path →
      (mux.matchOrRedirect host m path (some ⟨[], path, rq⟩)).2.2 =
        (if (!exactMatch ((treeMatch mux.tree host m path).1.map (fun x => x.1)) path &&
            !decide (path.getLast? = some '/') &&
            exactMatch ((treeMatch mux.tree host m (path ++ str "/")).1.map
              (fun x => x.1)) (path ++ str "/")) = true
         then some ⟨[], path ++ str "/", rq⟩ else none) := by
  refine ⟨by decide, ⟨by decide, by decide⟩, ?_⟩
  intro mux host m path rq hclean
  unfold ServeMux.matchOrRedirect
  simp only [Option.isSome_some, Bool.and_true, Bool.true_and]
  by_cases he1 : exactMatch ((treeMatch mux.tree host m path).1.map (fun x => x.1)) path = true
  · simp [he1]
  · have he1' : exactMatch ((treeMatch mux.tree host m path).1.map (fun x => x.1)) path = false :=
      Bool.eq_false_iff.mpr he1
    by_cases hend : path.getLast? = some '/'
    · simp [he1', hend]
    · by_cases he2 : exactMatch ((treeMatch mux.tree host m (path ++ str "/")).1.map
          (fun x => x.1)) (path ++ str "/") = true
      · simp [he1', hend, he2, hclean]
      · have he2' : exactMatch ((treeMatch mux.tree host m (path ++ str "/")).1.map
            (fun x => x.1)) (path ++ str "/") = false := Bool.eq_false_iff.mpr he2
        simp [he1', hend, he2']

/-- Closed instance of the general redirect contract of C4, at the images
scenario. -/
theorem claim4_redirect_contract_witness :
    cleanPath (str "/images") = str "/images" ∧
    (muxImages.matchOrRedirect [] (str "GET") (str "/images")
        (some ⟨[], str "/images", []⟩)).2.2 =
      (if (!exactMatch ((treeMatch muxImages.tree [] (str "GET") (str "/images")).1.map
            (fun x => x.1)) (str "/images") &&
          !decide ((str "/images").getLast? = some '/') &&
          exactMatch ((treeMatch muxImages.tree [] (str "GET")
              (str "/images" ++ str "/")).1.map (fun x => x.1))
            (str "/images" ++ str "/")) = true
       then some ⟨[], str "/images" ++ str "/", []⟩ else none) :=
  ⟨by decide,
    claim4_redirect_contract.2.2 muxImages [] (str "GET") (str "/images") []
      (by decide)⟩

/-- A candidate list in which no entry matches leaves the best-node
accumulator unchanged. -/
theorem bestNodeAux_unchanged (m : Str) (qs : List Str)
    (l : List (Pattern × Handler))
    (h : ∀ n ∈ l, (methodMatches n.1.method m &&
      (matchSegs n.1.segments qs).isSome) = false) :
    ∀ cur, bestNodeAux m qs cur l = cur := by
  induction l with
  | nil => intro cur; rfl
  | cons n rest ih =>
    intro cur
    unfold bestNodeAux
    rw [h n (List.mem_cons_self n rest)]
    exact ih (fun n' hn' => h n' (List.mem_cons_of_mem n hn')) cur

/-- If no registered pattern matches the host and path, the tree lookup
returns no node. -/
theorem treeMatch_none (t : RoutingTree) (host m path : Str)
    (h : ∀ pr ∈ t, (hostOK pr.1 host && pathMatch pr.1 path) = false) :
    treeMatch t host m path = (none, []) := by
  have hmm : ∀ (f : Pattern → Bool) (hf : ∀ p, f p = true → hostOK p host = true),
      bestNodeAux m (splitPath path) none (t.filter (fun n => f n.1)) = none := by
    intro f hf
    apply bestNodeAux_unchanged
    intro n hn
    have hmem := List.mem_of_mem_filter hn
    have hfil := List.of_mem_filter hn
    have hho : hostOK n.1 host = true := hf n.1 hfil
    have := h n hmem
    rw [hho] at this
    simp only [Bool.true_and] at this
    unfold pathMatch at this
    rw [this]
    exact Bool.and_false _
  have hempty := hmm (fun p => decide (p.host = [])) (fun p hp => by
    unfold hostOK
    rw [decide_eq_true_eq.mp hp]
    rfl)
  simp only [treeMatch]
  by_cases hh : host = []
  · rw [if_neg (by simp [hh]), hempty]
  · rw [if_pos (by exact hh)]
    rw [hmm (fun p => decide (p.host = host)) (fun p hp => by
      unfold hostOK
      rw [decide_eq_true_eq.mp hp]
      simp), hempty]

/-- If no registered pattern matches the host and path, the method
collection is unchanged. -/
theorem collectMethods_unchanged (host path : Str) (t : RoutingTree)
    (h : ∀ pr ∈ t, (hostOK pr.1 host && pathMatch pr.1 path) = false) :
    ∀ ms, collectMethods t host path ms = ms := by
  induction t with
  | nil => intro ms; rfl
  | cons n rest ih =>
    intro ms
    unfold collectMethods
    rw [h n (List.mem_cons_self n rest)]
    exact ih (fun n' hn' => h n' (List.mem_cons_of_mem n hn')) ms

/-- If no registered pattern matches the host and the path, with or
without an appended trailing slash, the matching-methods query is
empty. -/
theorem matchingMethods_empty (mux : ServeMux) (host path : Str)
    (h1 : ∀ pr ∈ mux.tree, (hostOK pr.1 host && pathMatch pr.1 path) = false)
    (h2 : ∀ pr ∈ mux.tree,
      (hostOK pr.1 host && pathMatch pr.1 (path ++ str "/")) = false) :
    mux.matchingMethods host path = [] := by
  unfold ServeMux.matchingMethods treeMatchingMethods
  rw [collectMethods_unchanged host path mux.tree h1 []]
  by_cases hend : path.getLast? = some '/'
  · simp only [hend]
    rfl
  · have : decide (path.getLast? = some '/') = false := by
      simp [hend]
    rw [this]
    simp only [Bool.not_false, if_pos rfl]
    rw [collectMethods_unchanged host (path ++ str "/") mux.tree h2]
    rfl

/-- If no registered pattern matches the host and path, with or without a
trailing slash, the lookup yields neither node nor redirect. -/
theorem matchOrRedirect_none (mux : ServeMux) (host m path : Str)
    (u : Option URL)
    (h1 : ∀ pr ∈ mux.tree, (hostOK pr.1 host && pathMatch pr.1 path) = false)
    (h2 : ∀ pr ∈ mux.tree,
      (hostOK pr.1 host && pathMatch pr.1 (path ++ str "/")) = false) :
    mux.matchOrRedirect host m path u = (none, [], none) := by
  have t1 := treeMatch_none mux.tree host m path h1
  have t2 := treeMatch_none mux.tree host m (path ++ str "/") h2
  simp only [ServeMux.matchOrRedirect, t1, t2]
  simp [exactMatch]

/-- If the request path is clean and no registered pattern matches its
host and path, with or without a trailing slash, the methods query is
empty and findHandler lands on not-found. -/
theorem findHandler_notFound (mux : ServeMux) (r : Request)
    (hc : r.method ≠ str "CONNECT")
    (hclean : cleanPath r.url.path = r.url.path)
    (h1 : ∀ pr ∈ mux.tree, (hostOK pr.1 (stripHostPort r.host) &&
      pathMatch pr.1 r.url.path) = false)
    (h2 : ∀ pr ∈ mux.tree, (hostOK pr.1 (stripHostPort r.host) &&
      pathMatch pr.1 (r.url.path ++ str "/")) = false) :
    mux.matchingMethods (stripHostPort r.host) r.url.path = [] ∧
    mux.findHandler r = .notFound := by
  have hme := matchingMethods_empty mux (stripHostPort r.host) r.url.path h1 h2
  refine ⟨hme, ?_⟩
  have hmor := matchOrRedirect_none mux (stripHostPort r.host) r.method
    r.url.path (some r.url) h1 h2
  simp only [ServeMux.findHandler, if_neg hc, hclean, hmor]
  simp [finishFind, hme]

/-- C8: with only "GET /x" registered, the matching-methods query for the
path "/x" returns exactly GET and HEAD for every host, a POST request for
"/x" therefore gets the method-not-allowed outcome; and for any request
whose host and path are matched by no registered pattern, the query is
empty and findHandler produces not-found. -/
theorem claim8_method_mismatch :
    (∀ host, muxGetX.matchingMethods host (str "/x") =
      [str "GET", str "HEAD"]) ∧
    muxGetX.findHandler ⟨str "POST", [], ⟨[], str "/x", []⟩⟩ =
      .methodNotAllowed [str "GET", str "HEAD"] ∧
    ∀ (mux : ServeMux) (r : Request),
      r.method ≠ str "CONNECT" →
      cleanPath r.url.path = r.url.path →
      (∀ pr ∈ mux.tree, (hostOK pr.1 (stripHostPort r.host) &&
        pathMatch pr.1 r.url.path) = false) →
      (∀ pr ∈ mux.tree, (hostOK pr.1 (stripHostPort r.host) &&
        pathMatch pr.1 (r.url.path ++ str "/")) = false) →
      mux.matchingMethods (stripHostPort r.host) r.url.path = [] ∧
      mux.findHandler r = .notFound := by
  refine ⟨?_, by decide, fun mux r => findHandler_notFound mux r⟩
  intro host
  have ht : muxGetX.tree =
      [(⟨str "GET", [], [⟨str "x", false, false⟩], str "GET /x",
        str "unknown location"⟩, .other 1)] := by decide
  have hA : (hostOK ⟨str "GET", [], [⟨str "x", false, false⟩], str "GET /x",
      str "unknown location"⟩ host && pathMatch ⟨str "GET", [],
      [⟨str "x", false, false⟩], str "GET /x", str "unknown location"⟩
      (str "/x")) = true := by
    have h2 : pathMatch ⟨str "GET", [], [⟨str "x", false, false⟩],
        str "GET /x", str "unknown location"⟩ (str "/x") = true := by decide
    rw [h2]
    rfl
  have hB : (hostOK ⟨str "GET", [], [⟨str "x", false, false⟩], str "GET /x",
      str "unknown location"⟩ host && pathMatch ⟨str "GET", [],
      [⟨str "x", false, false⟩], str "GET /x", str "unknown location"⟩
      (str "/x" ++ str "/")) = false := by
    have h2 : pathMatch ⟨str "GET", [], [⟨str "x", false, false⟩],
        str "GET /x", str "unknown location"⟩ (str "/x" ++ str "/") = false := by
      decide
    rw [h2]
    exact Bool.and_false _
  unfold ServeMux.matchingMethods
  rw [ht]
  unfold treeMatchingMethods
  simp only [collectMethods, hA, hB]
  decide

/-- Closed instance of C8's general part: an empty mux yields an empty
methods set and not-found. -/
theorem claim8_method_mismatch_witness :
    emptyMux.matchingMethods (stripHostPort []) (str "/nope") = [] ∧
    emptyMux.findHandler ⟨str "POST", [], ⟨[], str "/nope", []⟩⟩ = .notFound :=
  claim8_method_mismatch.2.2 emptyMux ⟨str "POST", [], ⟨[], str "/nope", []⟩⟩
    (by decide) (by decide)
    (fun pr hpr => absurd hpr (List.not_mem_nil pr))
    (fun pr hpr => absurd hpr (List.not_mem_nil pr))

/-- Bucket lookup on a cons cell. -/
theorem bucketGet_cons (e : RoutingIndexKey × List Pattern)
    (rest : List (RoutingIndexKey × List Pattern)) (k' : RoutingIndexKey) :
    bucketGet (e :: rest) k' = if e.1 = k' then e.2 else bucketGet rest k' := by
  unfold bucketGet
  by_cases h : e.1 = k'
  · rw [List.find?_cons_of_pos _ (by simp [h]), if_pos h]
  · rw [List.find?_cons_of_neg _ (by simp [h]), if_neg h]

/-- Bucket lookup on the empty map. -/
theorem bucketGet_nil (k : RoutingIndexKey) : bucketGet [] k = [] := rfl

/-- Bucket contents after a bucket append: the touched key gains the
pattern at the end, every other key is unchanged. -/
theorem bucketGet_bucketAdd (m : List (RoutingIndexKey × List Pattern))
    (k k' : RoutingIndexKey) (p : Pattern) :
    bucketGet (bucketAdd m k p) k' =
      if k' = k then bucketGet m k ++ [p] else bucketGet m k' := by
  induction m with
  | nil =>
    have hb : bucketAdd [] k p = [(k, [p])] := rfl
    rw [hb, bucketGet_cons, bucketGet_nil, bucketGet_nil]
    by_cases h : k' = k
    · rw [if_pos h.symm, if_pos h]
      rfl
    · rw [if_neg (fun hh => h hh.symm), if_neg h]
  | cons e rest ih =>
    unfold bucketAdd
    by_cases he : e.1 = k
    · rw [if_pos he]
      by_cases h : k' = k
      · subst h
        simp [bucketGet_cons, he]
      · have hek : ¬(e.1 = k') := fun hh => h (hh.symm.trans he)
        simp [bucketGet_cons, h, hek]
    · rw [if_neg he]
      by_cases hek : e.1 = k'
      · have hkk : ¬(k' = k) := fun hh => he (hek.trans hh)
        simp [bucketGet_cons, hek, hkk]
      · simp [bucketGet_cons, he, hek, ih]

/-- Membership in a bucket after recording a pattern under all its
segment keys: either the member was already there, or it is the new
pattern stored at the proper key of one of its positions. -/
theorem mem_bucketGet_addSegmentKeys (p q : Pattern) :
    ∀ (segs : List Segment) (m : List (RoutingIndexKey × List Pattern))
      (pos : Nat) (k : RoutingIndexKey),
      (q ∈ bucketGet (addSegmentKeys m pos segs p) k ↔
        q ∈ bucketGet m k ∨ (q = p ∧ ∃ j, ∃ hj : j < segs.length,
          k = ⟨pos + j, properKeyStr (segs.get ⟨j, hj⟩)⟩)) := by
  intro segs
  induction segs with
  | nil =>
    intro m pos k
    simp [addSegmentKeys]
  | cons seg rest ih =>
    intro m pos k
    have hkey : (⟨pos, if seg.wild then [] else seg.s⟩ : RoutingIndexKey) =
        ⟨pos, properKeyStr seg⟩ := rfl
    unfold addSegmentKeys
    rw [ih (bucketAdd m ⟨pos, if seg.wild then [] else seg.s⟩ p) (pos + 1) k]
    constructor
    · rintro (hq | ⟨rfl, j, hj, rfl⟩)
      · rw [bucketGet_bucketAdd] at hq
        by_cases hk : k = ⟨pos, if seg.wild then [] else seg.s⟩
        · rw [if_pos hk] at hq
          rcases List.mem_append.mp hq with hq | hq
          · exact Or.inl (by rw [hk]; exact hq)
          · simp at hq
            subst hq
            refine Or.inr ⟨rfl, 0, Nat.succ_pos _, ?_⟩
            rw [hk, hkey]
            simp
        · rw [if_neg hk] at hq
          exact Or.inl hq
      · refine Or.inr ⟨rfl, j + 1, Nat.succ_lt_succ hj, ?_⟩
        simp [Nat.add_assoc, Nat.add_comm 1 j]
    · rintro (hq | ⟨rfl, j, hj, rfl⟩)
      · left
        rw [bucketGet_bucketAdd]
        by_cases hk : k = ⟨pos, if seg.wild then [] else seg.s⟩
        · rw [if_pos hk, ← hk]
          exact List.mem_append.mpr (Or.inl hq)
        · rw [if_neg hk]
          exact hq
      · cases j with
        | zero =>
          left
          rw [bucketGet_bucketAdd]
          rw [if_pos (by rw [hkey]; simp)]
          exact List.mem_append.mpr (Or.inr (by simp))
        | succ j' =>
          right
          refine ⟨rfl, j', Nat.lt_of_succ_lt_succ hj, ?_⟩
          simp [Nat.add_assoc, Nat.add_comm 1 j']

/-- C9: the routing-index shape invariant is preserved by every addPattern
call: a multi-ending pattern goes only to the multis list, every other
pattern is recorded under the proper key of each of its positions and
appears in no other bucket. -/
theorem claim9_index_invariant (idx : RoutingIndex) (pat : Pattern)
    (h : IndexInv idx) : IndexInv (idx.addPattern pat) := by
  obtain ⟨hm, hb, hall⟩ := h
  unfold RoutingIndex.addPattern
  by_cases hmu : (lastSegment pat).multi = true
  · rw [if_pos hmu]
    refine ⟨?_, hb, hall⟩
    intro p hp
    rcases List.mem_append.mp hp with hp | hp
    · exact hm p hp
    · simp at hp
      subst hp
      exact hmu
  · rw [if_neg hmu]
    have hmu' : (lastSegment pat).multi = false := by
      revert hmu
      cases (lastSegment pat).multi <;> simp
    refine ⟨hm, ?_, ?_⟩
    · intro k p hp
      rw [show ({ idx with segments := addSegmentKeys idx.segments 0 pat.segments pat } :
            RoutingIndex).segments = addSegmentKeys idx.segments 0 pat.segments pat
          from rfl] at hp
      rcases (mem_bucketGet_addSegmentKeys pat p pat.segments idx.segments 0 k).mp hp with
        hp | ⟨rfl, j, hj, rfl⟩
      · exact hb k p hp
      · refine ⟨hmu', ?_⟩
        refine ⟨by simpa using hj, ?_⟩
        simp
    · intro p hp i hi
      obtain ⟨k, hk⟩ := hp
      rcases (mem_bucketGet_addSegmentKeys pat p pat.segments idx.segments 0 k).mp hk with
        hk | ⟨rfl, j, hj, rfl⟩
      · have hold := hall p ⟨k, hk⟩ i hi
        exact (mem_bucketGet_addSegmentKeys pat p pat.segments idx.segments 0 _).mpr
          (Or.inl hold)
      · exact (mem_bucketGet_addSegmentKeys p p p.segments idx.segments 0 _).mpr
          (Or.inr ⟨rfl, i, hi, by simp⟩)

/-- Closed instance of C9: the invariant holds for the empty index and is
preserved when a first pattern is added. -/
theorem claim9_index_invariant_witness :
    IndexInv emptyIndex ∧
    IndexInv (emptyIndex.addPattern
      ⟨[], [], [⟨str "a", false, false⟩], str "/a", []⟩) := by
  have h0 : IndexInv emptyIndex := by
    refine ⟨?_, ?_, ?_⟩
    · intro p hp
      exact absurd hp (List.not_mem_nil p)
    · intro k p hp
      rw [show (emptyIndex.segments : List (RoutingIndexKey × List Pattern)) = []
        from rfl, bucketGet_nil] at hp
      exact absurd hp (List.not_mem_nil p)
    · intro p hp i hi
      obtain ⟨k, hk⟩ := hp
      rw [show (emptyIndex.segments : List (RoutingIndexKey × List Pattern)) = []
        from rfl, bucketGet_nil] at hk
      exact absurd hk (List.not_mem_nil p)
  exact ⟨h0, claim9_index_invariant emptyIndex _ h0⟩

/-- Membership after a set insert. -/
theorem mem_insertIfAbsent (a x : Str) (ms : List Str) :
    a ∈ insertIfAbsent x ms ↔ a = x ∨ a ∈ ms := by
  unfold insertIfAbsent
  by_cases h : ms.contains x = true
  · rw [if_pos h]
    have hx : x ∈ ms := by
      have : ms.elem x = true := h
      exact List.elem_iff.mp this
    constructor
    · exact Or.inr
    · rintro (rfl | ha)
      · exact hx
      · exact ha
  · rw [if_neg h]
    constructor
    · intro ha
      rcases List.mem_append.mp ha with ha | ha
      · exact Or.inr ha
      · simp at ha
        exact Or.inl ha
    · rintro (rfl | ha)
      · exact List.mem_append.mpr (Or.inr (by simp))
      · exact List.mem_append.mpr (Or.inl ha)

/-- A set insert keeps the list duplicate-free. -/
theorem nodup_insertIfAbsent (x : Str) (ms : List Str) (h : ms.Nodup) :
    (insertIfAbsent x ms).Nodup := by
  unfold insertIfAbsent
  by_cases hc : ms.contains x = true
  · rw [if_pos hc]
    exact h
  · rw [if_neg hc]
    have hx : ¬x ∈ ms := by
      intro hmem
      exact hc (List.elem_iff.mpr hmem)
    simp [List.nodup_append, h, hx]

/-- A set insert only grows the set. -/
theorem subset_insertIfAbsent (x : Str) (ms : List Str) :
    ms ⊆ insertIfAbsent x ms := by
  intro a ha
  exact (mem_insertIfAbsent a x ms).mpr (Or.inr ha)

/-- The inserted element is a member. -/
theorem mem_insertIfAbsent_self (x : Str) (ms : List Str) :
    x ∈ insertIfAbsent x ms :=
  (mem_insertIfAbsent x x ms).mpr (Or.inl rfl)

/-- Collecting methods keeps the set duplicate-free. -/
theorem nodup_collectMethods (host path : Str) :
    ∀ (t : RoutingTree) (ms : List Str), ms.Nodup →
      (collectMethods t host path ms).Nodup := by
  intro t
  induction t with
  | nil => intro ms h; exact h
  | cons n rest ih =>
    intro ms h
    unfold collectMethods
    by_cases hc : (hostOK n.1 host && pathMatch n.1 path) = true
    · rw [hc]
      exact ih _ (nodup_insertIfAbsent _ _ h)
    · rw [Bool.eq_false_iff.mpr hc]
      exact ih _ h

/-- Collecting methods only grows the set. -/
theorem subset_collectMethods (host path : Str) :
    ∀ (t : RoutingTree) (ms : List Str), ms ⊆ collectMethods t host path ms := by
  intro t
  induction t with
  | nil => intro ms; exact fun a ha => ha
  | cons n rest ih =>
    intro ms
    unfold collectMethods
    by_cases hc : (hostOK n.1 host && pathMatch n.1 path) = true
    · rw [hc]
      exact fun a ha => ih _ (subset_insertIfAbsent _ _ ha)
    · rw [Bool.eq_false_iff.mpr hc]
      exact ih ms

/-- The method of a matching registered pattern is collected. -/
theorem mem_collectMethods (host path : Str) :
    ∀ (t : RoutingTree) (ms : List Str) (p : Pattern) (hd : Handler),
      (p, hd) ∈ t → (hostOK p host && pathMatch p path) = true →
      p.method ∈ collectMethods t host path ms := by
  intro t
  induction t with
  | nil =>
    intro ms p hd hmem
    exact absurd hmem (List.not_mem_nil _)
  | cons n rest ih =>
    intro ms p hd hmem hmatch
    unfold collectMethods
    rcases List.mem_cons.mp hmem with rfl | hmem
    · rw [hmatch]
      exact subset_collectMethods host path rest _
        (mem_insertIfAbsent_self _ _)
    · exact ih _ p hd hmem hmatch

/-- The tree-level query keeps the set duplicate-free. -/
theorem nodup_treeMatchingMethods (t : RoutingTree) (host path : Str)
    (ms : List Str) (h : ms.Nodup) :
    (treeMatchingMethods t host path ms).Nodup := by
  unfold treeMatchingMethods
  have hc := nodup_collectMethods host path t ms h
  by_cases hg : (collectMethods t host path ms).contains (str "GET") = true
  · rw [if_pos hg]
    exact nodup_insertIfAbsent _ _ hc
  · rw [if_neg hg]
    exact hc

/-- The tree-level query extends the collected set. -/
theorem subset_treeMatchingMethods (t : RoutingTree) (host path : Str)
    (ms : List Str) :
    collectMethods t host path ms ⊆ treeMatchingMethods t host path ms := by
  unfold treeMatchingMethods
  by_cases hg : (collectMethods t host path ms).contains (str "GET") = true
  · rw [if_pos hg]
    exact subset_insertIfAbsent _ _
  · rw [if_neg hg]
    exact fun a ha => ha

/-- The matching-methods query, written without the source's intermediate
bindings. -/
theorem matchingMethods_eq (mux : ServeMux) (host path : Str) :
    mux.matchingMethods host path =
      List.insertionSort (fun a b => a ≤ b)
        (if (!decide (path.getLast? = some '/')) = true
         then treeMatchingMethods mux.tree host (path ++ str "/")
           (treeMatchingMethods mux.tree host path [])
         else treeMatchingMethods mux.tree host path []) := rfl

/-- C10: for every mux, host and path the matching-methods result is a
duplicate-free list sorted in ascending string order; when the path does
not end in a slash the query also collects methods matching the path with
a slash appended, so a registered subtree pattern such as "GET /x/"
contributes its method to the query for "/x". -/
theorem claim10_matching_methods :
    (∀ (mux : ServeMux) (host path : Str),
      List.Sorted (fun a b : Str => a ≤ b) (mux.matchingMethods host path) ∧
      (mux.matchingMethods host path).Nodup) ∧
    (∀ (mux : ServeMux) (host path : Str) (p : Pattern) (hd : Handler),
      ¬(path.getLast? = some '/') → (p, hd) ∈ mux.tree →
      (hostOK p host && pathMatch p (path ++ str "/")) = true →
      p.method ∈ mux.matchingMethods host path) ∧
    muxGetXSlash.matchingMethods [] (str "/x") = [str "GET", str "HEAD"] := by
  refine ⟨?_, ?_, by decide⟩
  · intro mux host path
    rw [matchingMethods_eq]
    refine ⟨List.sorted_insertionSort _ _, ?_⟩
    have hperm := List.perm_insertionSort (fun a b : Str => a ≤ b)
      (if (!decide (path.getLast? = some '/')) = true
       then treeMatchingMethods mux.tree host (path ++ str "/")
         (treeMatchingMethods mux.tree host path [])
       else treeMatchingMethods mux.tree host path [])
    rw [hperm.nodup_iff]
    by_cases hend : (!decide (path.getLast? = some '/')) = true
    · rw [if_pos hend]
      exact nodup_treeMatchingMethods _ _ _ _
        (nodup_treeMatchingMethods _ _ _ _ List.nodup_nil)
    · rw [if_neg hend]
      exact nodup_treeMatchingMethods _ _ _ _ List.nodup_nil
  · intro mux host path p hd hend hmem hmatch
    rw [matchingMethods_eq]
    have hcond : (!decide (path.getLast? = some '/')) = true := by
      simp [hend]
    rw [if_pos hcond]
    have hperm := List.perm_insertionSort (fun a b : Str => a ≤ b)
      (treeMatchingMethods mux.tree host (path ++ str "/")
        (treeMatchingMethods mux.tree host path []))
    rw [hperm.mem_iff]
    exact subset_treeMatchingMethods _ _ _ _
      (mem_collectMethods host (path ++ str "/") mux.tree _ p hd hmem hmatch)

/-- Closed instance of C10's subtree half: the method of "GET /x/" is in
the query result for "/x". -/
theorem claim10_matching_methods_witness :
    ¬((str "/x").getLast? = some '/') ∧
    str "GET" ∈ muxGetXSlash.matchingMethods [] (str "/x") := by
  refine ⟨by decide, ?_⟩
  have hmem : (⟨str "GET", [], [⟨str "x", false, false⟩, ⟨[], true, true⟩],
      str "GET /x/", str "unknown location"⟩, Handler.other 1) ∈ muxGetXSlash.tree := by
    have ht : muxGetXSlash.tree =
        [(⟨str "GET", [], [⟨str "x", false, false⟩, ⟨[], true, true⟩],
          str "GET /x/", str "unknown location"⟩, Handler.other 1)] := by decide
    rw [ht]
    exact List.mem_cons_self _ _
  exact claim10_matching_methods.2.1 muxGetXSlash [] (str "/x") _ _
    (by decide) hmem (by decide)

/-- Splitting on slashes never yields an empty chunk list. -/
theorem splitOnSlash_ne_nil (s : Str) : splitOnSlash s ≠ [] := by
  induction s with
  | nil => simp [splitOnSlash]
  | cons c rest ih =>
    unfold splitOnSlash
    by_cases h : c = '/'
    · simp [h]
    · rw [if_neg h]
      cases hs : splitOnSlash rest with
      | nil => simp
      | cons s ss => simp

/-- The number of chunks is one more than the number of slashes. -/
theorem splitOnSlash_length (s : Str) :
    (splitOnSlash s).length = s.count '/' + 1 := by
  induction s with
  | nil => rfl
  | cons c rest ih =>
    unfold splitOnSlash
    by_cases h : c = '/'
    · rw [if_pos h]
      simp [List.count_cons, h, ih]
    · rw [if_neg h]
      cases hs : splitOnSlash rest with
      | nil => exact absurd hs (splitOnSlash_ne_nil rest)
      | cons s ss =>
        rw [hs] at ih
        simp only [List.length_cons] at ih ⊢
        rw [List.count_cons]
        simp [show ¬(c = '/') from h]
        omega

/-- A character list whose last-element query answers must contain that
answer. -/
theorem mem_of_getLast?_char : ∀ (l : Str) (a : Char),
    l.getLast? = some a → a ∈ l
  | [], a, h => by simp at h
  | [x], a, h => by
    simp at h
    simp [h]
  | x :: y :: l, a, h => by
    rw [List.getLast?_cons_cons] at h
    exact List.mem_cons_of_mem x (mem_of_getLast?_char (y :: l) a h)

/-- The final chunk is empty exactly when the text is empty or ends in a
slash. -/
theorem splitOnSlash_getLast (s : Str) :
    (splitOnSlash s).getLast? = some [] ↔ (s = [] ∨ s.getLast? = some '/') := by
  induction s with
  | nil => simp [splitOnSlash]
  | cons c rest ih =>
    unfold splitOnSlash
    by_cases h : c = '/'
    · rw [if_pos h]
      cases hr : splitOnSlash rest with
      | nil => exact absurd hr (splitOnSlash_ne_nil rest)
      | cons s ss =>
        rw [List.getLast?_cons_cons]
        rw [hr] at ih
        cases rest with
        | nil =>
          simp [splitOnSlash] at hr
          simp [hr.1, hr.2, h]
        | cons d ds =>
          rw [List.getLast?_cons_cons]
          rw [ih]
          simp
    · rw [if_neg h]
      cases hr : splitOnSlash rest with
      | nil => exact absurd hr (splitOnSlash_ne_nil rest)
      | cons s ss =>
        rw [hr] at ih
        cases ss with
        | nil =>
          have hcount : rest.count '/' = 0 := by
            have := splitOnSlash_length rest
            rw [hr] at this
            simp at this
            omega
          have hnin : ¬('/' ∈ rest) := List.count_eq_zero.mp hcount
          constructor
          · intro hx
            simp at hx
          · rintro (hx | hx)
            · exact absurd hx (List.cons_ne_nil c rest)
            · cases rest with
              | nil =>
                simp at hx
                exact absurd hx h
              | cons d ds =>
                rw [List.getLast?_cons_cons] at hx
                exact absurd (mem_of_getLast?_char (d :: ds) '/' hx) hnin
        | cons s2 ss2 =>
          have hrne : rest ≠ [] := by
            intro hre
            rw [hre] at hr
            simp [splitOnSlash] at hr
          rw [List.getLast?_cons_cons] at ih
          rw [List.getLast?_cons_cons, ih]
          cases rest with
          | nil => exact absurd rfl hrne
          | cons d ds =>
            rw [List.getLast?_cons_cons]
            simp

/-- Joined chunks are empty exactly for no chunk or a single empty
chunk. -/
theorem joinSlash_eq_nil (l : List Str) :
    joinSlash l = [] ↔ (l = [] ∨ l = [[]]) := by
  cases l with
  | nil => simp [joinSlash]
  | cons s rest =>
    cases rest with
    | nil => simp [joinSlash]
    | cons s2 rest2 =>
      unfold joinSlash
      constructor
      · intro h
        cases hs : s with
        | nil => rw [hs] at h; simp at h
        | cons a as => rw [hs] at h; simp at h
      · rintro (h | h) <;> simp at h

/-- Dropping a prefix does not change the last element as long as
something remains. -/
theorem getLast?_drop_str : ∀ (l : List Str) (n : Nat),
    l.drop n ≠ [] → (l.drop n).getLast? = l.getLast? := by
  intro l
  induction l with
  | nil =>
    intro n h
    simp at h
  | cons a l' ih =>
    intro n h
    cases n with
    | zero => rfl
    | succ n' =>
      rw [List.drop_succ_cons] at h ⊢
      rw [ih n' h]
      cases l' with
      | nil => simp at h
      | cons b l'' => rw [List.getLast?_cons_cons]

/-- Multi flag of the last segment, in query form. -/
theorem lastSegment_multi_eq (p : Pattern) :
    (lastSegment p).multi =
      (p.segments.getLast?.map (fun seg => seg.multi)).getD false := by
  unfold lastSegment
  rw [List.getLastD_eq_getLast?]
  cases p.segments.getLast? with
  | none => rfl
  | some seg => rfl

/-- Structure of a successful segment match: when the pattern ends in a
multi wildcard the consumed text is the joined remainder of the path
segments after the one-to-one prefix, and otherwise nothing is consumed
and the counts agree. -/
theorem matchSegs_spec : ∀ (segs : List Segment) (qs bs : List Str)
    (c : Option Str), matchSegs segs qs = some (bs, c) →
    (((segs.getLast?.map (fun seg => seg.multi)).getD false) = true →
      segs.length ≤ qs.length ∧ 1 ≤ segs.length ∧
      c = some (joinSlash (qs.drop (segs.length - 1)))) ∧
    (((segs.getLast?.map (fun seg => seg.multi)).getD false) = false →
      c = none ∧ qs.length = segs.length) := by
  intro segs
  induction segs with
  | nil =>
    intro qs bs c h
    cases qs with
    | nil =>
      unfold matchSegs at h
      injection h with h1
      have hc : c = none := (congrArg Prod.snd h1).symm
      constructor
      · intro hf
        simp at hf
      · intro _
        exact ⟨hc, rfl⟩
    | cons q qtail =>
      unfold matchSegs at h
      exact Option.noConfusion h
  | cons seg rest ih =>
    intro qs bs c h
    by_cases hm : seg.multi = true
    · unfold matchSegs at h
      rw [if_pos hm] at h
      by_cases hrq : rest = [] ∧ qs ≠ []
      · rw [if_pos hrq] at h
        obtain ⟨hrest, hqs⟩ := hrq
        subst hrest
        injection h with h1
        have hc : c = some (joinSlash qs) := (congrArg Prod.snd h1).symm
        constructor
        · intro _
          refine ⟨List.length_pos.mpr hqs, le_refl 1, ?_⟩
          simpa using hc
        · intro hf
          simp [hm] at hf
      · rw [if_neg hrq] at h
        exact Option.noConfusion h
    · cases qs with
      | nil =>
        unfold matchSegs at h
        rw [if_neg hm] at h
        exact Option.noConfusion h
      | cons q qtail =>
        have hrec : ∃ bs', matchSegs rest qtail = some (bs', c) := by
          by_cases hw : seg.wild = true
          · by_cases hq0 : q = []
            · simp [matchSegs, hm, hw, hq0] at h
            · simp only [matchSegs, if_neg hm, if_pos hw, if_neg hq0] at h
              cases hr : matchSegs rest qtail with
              | none =>
                rw [hr] at h
                exact Option.noConfusion h
              | some r =>
                rw [hr] at h
                injection h with h1
                have hc : c = r.2 := (congrArg Prod.snd h1).symm
                exact ⟨r.1, by simp [hr, hc]⟩
          · by_cases hd : seg.s = str "/"
            · by_cases hq0 : q = []
              · simp only [matchSegs, if_neg hm, if_neg hw, if_pos hd,
                  if_pos hq0] at h
                exact ⟨bs, h⟩
              · simp only [matchSegs, if_neg hm, if_neg hw, if_pos hd,
                  if_neg hq0] at h
                exact Option.noConfusion h
            · by_cases hq : seg.s = q
              · simp only [matchSegs, if_neg hm, if_neg hw, if_neg hd,
                  if_pos hq] at h
                exact ⟨bs, h⟩
              · simp only [matchSegs, if_neg hm, if_neg hw, if_neg hd,
                  if_neg hq] at h
                exact Option.noConfusion h
        obtain ⟨bs', hrec⟩ := hrec
        have IH := ih qtail bs' c hrec
        cases rest with
        | nil =>
          have hlen : qtail.length = 0 := (IH.2 (by simp)).2
          have hc : c = none := (IH.2 (by simp)).1
          constructor
          · intro hf
            simp at hf
            exact absurd hf hm
          · intro _
            refine ⟨hc, ?_⟩
            simp [hlen]
        | cons r rs =>
          have hlast : ((seg :: r :: rs).getLast?.map
              (fun seg => seg.multi)).getD false =
              (((r :: rs).getLast?.map (fun seg => seg.multi)).getD false) := by
            rw [List.getLast?_cons_cons]
          constructor
          · intro hmu
            rw [hlast] at hmu
            obtain ⟨h1, h2, h3⟩ := IH.1 hmu
            refine ⟨by simpa using Nat.succ_le_succ h1, by simp, ?_⟩
            have hdrop : List.drop ((seg :: r :: rs).length - 1) (q :: qtail) =
                List.drop ((r :: rs).length - 1) qtail := by
              have hl : (seg :: r :: rs).length - 1 = ((r :: rs).length - 1) + 1 := by
                simp
              rw [hl, List.drop_succ_cons]
            rw [h3, hdrop]
          · intro hmu
            rw [hlast] at hmu
            obtain ⟨h1, h2⟩ := IH.2 hmu
            refine ⟨h1, ?_⟩
            simp [h2]

/-- A pattern whose last segment carries the multi flag has at least one
segment. -/
theorem segments_ne_nil_of_multi (p : Pattern)
    (h : (lastSegment p).multi = true) : p.segments ≠ [] := by
  intro h0
  have : lastSegment p = ⟨[], false, false⟩ := by
    unfold lastSegment
    rw [h0]
    rfl
  rw [this] at h
  simp at h

/-- Code-level characterization of exactness for multi-ending patterns:
the path must end in a slash and have as many slashes as the pattern has
segments. -/
theorem exactMatch_multi_iff (p : Pattern) (path : Str)
    (h : (lastSegment p).multi = true) :
    exactMatch (some p) path = true ↔
      (path.getLast? = some '/' ∧ p.segments.length = path.count '/') := by
  have hne : p.segments ≠ [] := segments_ne_nil_of_multi p h
  have hlen : p.segments.length ≠ 0 := by
    intro h0
    exact hne (List.length_eq_zero.mp h0)
  simp only [exactMatch]
  rw [h]
  simp only [Bool.not_true, if_false]
  cases path with
  | nil =>
    simp [List.count_nil, hlen]
  | cons a t =>
    by_cases hend : (a :: t).getLast? = some '/'
    · simp [hend]
    · simp [hend]

/-- Exactness of a match that ends in no multi wildcard. -/
theorem exactMatch_nonmulti (p : Pattern) (path : Str)
    (h : (lastSegment p).multi = false) : exactMatch (some p) path = true := by
  simp only [exactMatch]
  rw [h]
  rfl

/-- Ending in a slash, restated through the tail of a rooted path. -/
theorem getLast?_slash_cons (t : Str) :
    (('/' :: t).getLast? = some '/') ↔ (t = [] ∨ t.getLast? = some '/') := by
  cases t with
  | nil => simp
  | cons d ds =>
    rw [List.getLast?_cons_cons]
    simp

/-- C5: exactMatch of a missing node is false; a pattern not ending in a
multi wildcard always matches exactly; a multi-ending pattern matches
exactly precisely when the path ends in a slash and the pattern has as
many segments as the path has slashes; and for any matched pattern and
rooted request path, exactness holds if and only if no multi wildcard of
the pattern consumed a non-empty part of the path. -/
theorem claim5_exactMatch :
    (∀ path, exactMatch none path = false) ∧
    (∀ (p : Pattern) (path : Str), (lastSegment p).multi = false →
      exactMatch (some p) path = true) ∧
    (∀ (p : Pattern) (path : Str), (lastSegment p).multi = true →
      (exactMatch (some p) path = true ↔
        (path.getLast? = some '/' ∧ p.segments.length = path.count '/'))) ∧
    (∀ (p : Pattern) (path : Str), pathMatch p path = true →
      path.head? = some '/' →
      (exactMatch (some p) path = true ↔
        ∀ s, (matchSegs p.segments (splitPath path)).bind (fun x => x.2) =
          some s → s = [])) := by
  refine ⟨fun path => rfl, fun p path h => exactMatch_nonmulti p path h,
    fun p path h => exactMatch_multi_iff p path h, ?_⟩
  intro p path hm hhead
  cases path with
  | nil => simp at hhead
  | cons a t =>
    have ha : a = '/' := by simpa using hhead
    subst ha
    have hqs : splitPath ('/' :: t) = splitOnSlash t := by
      simp [splitPath]
    unfold pathMatch at hm
    obtain ⟨r, hr⟩ := Option.isSome_iff_exists.mp hm
    obtain ⟨bs, c⟩ := r
    rw [hqs] at hr ⊢
    have hspec := matchSegs_spec p.segments (splitOnSlash t) bs c hr
    rw [hr]
    have hbind : ((some (bs, c)).bind (fun x => x.2)) = c := rfl
    rw [hbind]
    by_cases hmu : (lastSegment p).multi = true
    · obtain ⟨hk1, hk2, hc⟩ := hspec.1 (by rw [← lastSegment_multi_eq]; exact hmu)
      subst hc
      rw [exactMatch_multi_iff p _ hmu]
      have hiff1 : (∀ s, some (joinSlash ((splitOnSlash t).drop
          (p.segments.length - 1))) = some s → s = []) ↔
          joinSlash ((splitOnSlash t).drop (p.segments.length - 1)) = [] := by
        constructor
        · intro hf
          exact hf _ rfl
        · intro h0 s hs
          injection hs with hs
          rw [← hs]
          exact h0
      rw [hiff1, joinSlash_eq_nil]
      have hdropne : (splitOnSlash t).drop (p.segments.length - 1) ≠ [] := by
        intro h0
        have := congrArg List.length h0
        rw [List.length_drop] at this
        simp at this
        omega
      have hlen : (splitOnSlash t).length = t.count '/' + 1 :=
        splitOnSlash_length t
      have hcount : ('/' :: t).count '/' = t.count '/' + 1 := by
        rw [List.count_cons]
        simp
      have hlast : (('/' :: t).getLast? = some '/') ↔
          ((splitOnSlash t).getLast? = some []) := by
        rw [getLast?_slash_cons, ← splitOnSlash_getLast]
      constructor
      · rintro ⟨hend, hkc⟩
        right
        have hqlen : (splitOnSlash t).length = p.segments.length := by
          rw [hlen]
          rw [hcount] at hkc
          omega
        have h1 : ((splitOnSlash t).drop (p.segments.length - 1)).length = 1 := by
          rw [List.length_drop]
          omega
        obtain ⟨x, hx⟩ := List.length_eq_one.mp h1
        have hgl := getLast?_drop_str (splitOnSlash t) (p.segments.length - 1)
          hdropne
        rw [hx] at hgl
        have hxx : some x = some [] := by
          have h2 : (splitOnSlash t).getLast? = some [] := hlast.mp hend
          rw [← h2]
          exact hgl
        injection hxx with hxx
        rw [hx, hxx]
      · rintro (h0 | h0)
        · exact absurd h0 hdropne
        · have hql : (splitOnSlash t).length - (p.segments.length - 1) = 1 := by
            have := congrArg List.length h0
            rw [List.length_drop] at this
            simpa using this
          have hqlen : (splitOnSlash t).length = p.segments.length := by omega
          have hend : (splitOnSlash t).getLast? = some [] := by
            have hgl := getLast?_drop_str (splitOnSlash t)
              (p.segments.length - 1) (by rw [h0]; simp)
            rw [h0] at hgl
            simpa using hgl.symm
          refine ⟨hlast.mpr hend, ?_⟩
          rw [hcount]
          rw [hlen] at hqlen
          omega
    · have hmu' : (lastSegment p).multi = false := by
        revert hmu
        cases (lastSegment p).multi <;> simp
      obtain ⟨hc, _⟩ := hspec.2 (by rw [← lastSegment_multi_eq]; exact hmu')
      subst hc
      rw [exactMatch_nonmulti p _ hmu']
      simp

/-- Closed instance of C5: the subtree pattern for "/a/" matches "/a/"
exactly (its multi consumed nothing) but matches "/a/b" inexactly, and a
single-wildcard pattern matches exactly. -/
theorem claim5_exactMatch_witness :
    exactMatch none (str "/a") = false ∧
    (((lastSegment ⟨[], [], [⟨str "a", false, false⟩], str "/a", []⟩).multi =
        false) ∧
      exactMatch (some ⟨[], [], [⟨str "a", false, false⟩], str "/a", []⟩)
        (str "/a") = true) ∧
    (pathMatch ⟨[], [], [⟨str "a", false, false⟩, ⟨[], true, true⟩],
        str "/a/", []⟩ (str "/a/b") = true ∧
      (str "/a/b").head? = some '/' ∧
      (exactMatch (some ⟨[], [], [⟨str "a", false, false⟩, ⟨[], true, true⟩],
          str "/a/", []⟩) (str "/a/b") = true ↔
        ∀ s, (matchSegs [⟨str "a", false, false⟩, ⟨[], true, true⟩]
          (splitPath (str "/a/b"))).bind (fun x => x.2) = some s → s = [])) :=
  ⟨claim5_exactMatch.1 (str "/a"),
    ⟨by decide, claim5_exactMatch.2.1 _ (str "/a") (by decide)⟩,
    ⟨by decide, by decide,
      claim5_exactMatch.2.2.2 _ (str "/a/b") (by decide) (by decide)⟩⟩
